import Mathlib

set_option maxRecDepth 8000

/-!
Verification of the RustLexer tokenizer engine (`src/lib.rs`, module `lexer`).

The engine delegates pattern matching to the external `regex` crate. The crate
is modelled here by a small regular-expression fragment with the crate's
observable semantics: leftmost-first (`find` returns the match at the smallest
starting offset, and at that offset the backtracking-priority match end:
alternation prefers its left branch, `star` is greedy), and `RegexSet::matches`
reports every pattern that matches anywhere in the haystack. Pattern strings
are parsed by a recursive-descent grammar mirroring the crate's syntax for the
fragment: literals, `.`, the classes `\d` `\s` `\w`, escaped metacharacters,
the start anchor `^`, postfix `*` `+` `?`, and top-level alternation `|`;
grouping, counted repetition and lazy operators are outside the fragment, and
a repetition operator applied to an anchor or with no preceding atom is
rejected as invalid. Rust byte offsets are modelled as character offsets
(`String` becomes `List Char`), which is faithful for the bounds and
monotonicity facts proved here.
-/

namespace RLex

/-- Abstract syntax of the regular-expression fragment. A character class
carries its membership test; single literals are classes via `litChar`. -/
inductive RE : Type where
  | eps : RE
  | anchor : RE
  | cls : (Char → Bool) → RE
  | seq : RE → RE → RE
  | alt : RE → RE → RE
  | star : RE → RE

/-- Structural size of a regex, used to compute sufficient matcher fuel. -/
def reSize : RE → Nat
  | .eps => 1
  | .anchor => 1
  | .cls _ => 1
  | .seq a b => reSize a + reSize b + 1
  | .alt a b => reSize a + reSize b + 1
  | .star a => reSize a + 1

/-- The class `\s`: one whitespace character (ASCII fragment of the crate's `\s`). -/
def isWsChar (c : Char) : Bool :=
  c == ' ' || c == '\t' || c == '\n' || c == '\r' || c == '\x0b' || c == '\x0c'

/-- The class `\d`: one decimal digit. -/
def isDigitChar (c : Char) : Bool := '0' ≤ c && c ≤ '9'

/-- The class `\w`: one word character. -/
def isWordChar (c : Char) : Bool :=
  isDigitChar c || ('a' ≤ c && c ≤ 'z') || ('A' ≤ c && c ≤ 'Z') || c == '_'

/-- A single literal character as a class. -/
def litChar (c : Char) : Char → Bool := fun x => x == c

/-- The class `.`: any character except a newline. -/
def dotChar (c : Char) : Bool := !(c == '\n')

/-- All end positions of matches of `r` in `s` starting at offset `i`, in
backtracking priority order (alternation: left branch first; `star`: greedy,
longest continuation first; the head of the list is the end the crate's
`find` reports for a match starting at `i`). Fuel-indexed so the definition
is structural and kernel-reducible; `reSize r + (s.length + 1 - i)` fuel is
enough, see `matchEnds_stab`. A `star` iteration must consume at least one
character, which is how a backtracking engine avoids empty-iteration loops
and does not change the set of match ends. -/
def matchEnds : Nat → RE → List Char → Nat → List Nat
  | 0, _, _, _ => []
  | fuel + 1, r, s, i =>
    match r with
    | .eps => [i]
    | .anchor => if i = 0 then [i] else []
    | .cls p =>
      match s.get? i with
      | some c => if p c then [i + 1] else []
      | none => []
    | .alt r₁ r₂ => matchEnds fuel r₁ s i ++ matchEnds fuel r₂ s i
    | .seq r₁ r₂ => (matchEnds fuel r₁ s i).flatMap (fun j => matchEnds fuel r₂ s j)
    | .star r₁ =>
      ((matchEnds fuel r₁ s i).filter (fun j => i < j)).flatMap
        (fun j => matchEnds fuel (.star r₁) s j) ++ [i]

/-- Fuel sufficient for `matchEnds` on `r` at any offset of `s`. -/
def RE.fuelFor (r : RE) (s : List Char) : Nat := reSize r + s.length + 1

/-- Match ends of `r` in `s` at offset `i` (with canonical sufficient fuel). -/
def RE.ends (r : RE) (s : List Char) (i : Nat) : List Nat :=
  matchEnds (r.fuelFor s) r s i

/-- `Regex::find`: the leftmost match of `r` in `s`, as `(start, end)` offsets,
with the leftmost-first match end. -/
def RE.find (r : RE) (s : List Char) : Option (Nat × Nat) :=
  (List.range (s.length + 1)).findSome? (fun i => (r.ends s i).head?.map (fun e => (i, e)))

/-- One pattern's entry in `RegexSet::matches`: does `r` match anywhere in `s`? -/
def RE.existsMatch (r : RE) (s : List Char) : Bool :=
  (List.range (s.length + 1)).any (fun i => !(r.ends s i).isEmpty)

/-- Metacharacters of the fragment: not valid as bare literal atoms. -/
def isMeta (c : Char) : Bool :=
  c == '*' || c == '+' || c == '?' || c == '|' || c == '(' || c == ')' ||
  c == '[' || c == ']' || c == '\x7b' || c == '\x7d' || c == '^' || c == '$' ||
  c == '.' || c == '\\'

/-- Parse one atom of a pattern. Returns the atom, whether a repetition
operator may be applied to it (`false` for the anchor `^`), and the rest of
the input. `none` when the input does not start with an atom of the fragment. -/
def parseAtom : List Char → Option (RE × Bool × List Char)
  | [] => none
  | '^' :: rest => some (.anchor, false, rest)
  | '.' :: rest => some (.cls dotChar, true, rest)
  | '\\' :: [] => none
  | '\\' :: c :: rest =>
    if c == 'd' then some (.cls isDigitChar, true, rest)
    else if c == 's' then some (.cls isWsChar, true, rest)
    else if c == 'w' then some (.cls isWordChar, true, rest)
    else if isMeta c then some (.cls (litChar c), true, rest)
    else none
  | c :: rest => if isMeta c then none else some (.cls (litChar c), true, rest)

/-- Parse a concatenation: as many atoms (with optional postfix `*` `+` `?`)
as possible. Stops (successfully) at `|` or at a character that starts no
atom; fails on a repetition operator applied to a non-repeatable atom. The
fuel only needs to exceed the input length (each atom consumes a character). -/
def parseItems : Nat → List Char → Option (RE × List Char)
  | 0, _ => none
  | fuel + 1, cs =>
    match parseAtom cs with
    | none => some (.eps, cs)
    | some (r, rep, rest) =>
      match rest with
      | '*' :: rest2 =>
        if rep then (parseItems fuel rest2).map (fun p => (.seq (.star r) p.1, p.2)) else none
      | '+' :: rest2 =>
        if rep then (parseItems fuel rest2).map (fun p => (.seq (.seq r (.star r)) p.1, p.2)) else none
      | '?' :: rest2 =>
        if rep then (parseItems fuel rest2).map (fun p => (.seq (.alt r .eps) p.1, p.2)) else none
      | _ => (parseItems fuel rest).map (fun p => (.seq r p.1, p.2))

/-- Parse a whole pattern: an alternation of concatenations, consuming the
entire input. `none` when the pattern is not a valid regex of the fragment. -/
def parseAlt : Nat → List Char → Option RE
  | 0, _ => none
  | fuel + 1, cs =>
    match parseItems (cs.length + 1) cs with
    | none => none
    | some (r, rest) =>
      match rest with
      | [] => some r
      | '|' :: rest2 => (parseAlt fuel rest2).map (fun r2 => .alt r r2)
      | _ => none

/-- `Regex::new`: compile a pattern string, `none` on invalid syntax
(the crate's `Regex::new` returning `Err`, which `build` unwraps — a panic). -/
def Regex.new (pat : List Char) : Option RE := parseAlt (pat.length + 1) pat

/-- Compile every pattern with `"^"` prepended (`String::from("^") + &a.token`),
failing as soon as one pattern is invalid — the collection the `regex` crate
performs for both `RegexSet::new(...)` and the `Vec` of `Regex::new(...)`. -/
def compileAll : List (List Char) → Option (List RE)
  | [] => some []
  | p :: ps =>
    match Regex.new ('^' :: p) with
    | none => none
    | some r =>
      match compileAll ps with
      | none => none
      | some rs => some (r :: rs)

/-- `LexAction`: a pattern string paired with its conversion function. -/
structure LexAction (TokenType : Type) where
  token : List Char
  action : List Char → TokenType

/-- `LexerBuilder`: the ordered list of rules pushed so far. -/
structure LexerBuilder (TokenType : Type) where
  actions : List (LexAction TokenType)

/-- `Lexer`: the built engine. `regex_set` models the `RegexSet`, `regexes`
the individually compiled regexes; both are compiled from the same anchored
pattern strings and compilation is deterministic, so they hold the same list. -/
structure Lexer (TokenType : Type) where
  regex_set : List RE
  regexes : List RE
  actions : List (List Char → TokenType)
  data : List Char
  curr_pos : Nat

variable {T : Type}

/-- `LexerBuilder::new`. -/
def LexerBuilder.new (TokenType : Type) : LexerBuilder TokenType := ⟨[]⟩

/-- `LexerBuilder::push`: append a rule. -/
def LexerBuilder.push (b : LexerBuilder T) (token : List Char) (action : List Char → T) :
    LexerBuilder T :=
  { actions := b.actions ++ [{ token := token, action := action }] }

/-- `LexerBuilder::build`: compile every pattern with `"^"` prepended
(`String::from("^") + &a.token`); `none` models the `unwrap` panic when some
pattern fails to compile. On success the engine starts with empty `data` and
`curr_pos = 0`. -/
def LexerBuilder.build (b : LexerBuilder T) : Option (Lexer T) :=
  match compileAll (b.actions.map (fun a => a.token)) with
  | none => none
  | some rs =>
    some { regex_set := rs, regexes := rs, actions := b.actions.map (fun a => a.action),
           data := [], curr_pos := 0 }

/-- The lazily initialised whitespace regex `WS: Regex = Regex::new(r"^\s")`. -/
def WS : RE := (Regex.new ['^', '\\', 's']).getD .eps

/-- `Lexer::init`: replace the buffer and reset the cursor. -/
def Lexer.init (l : Lexer T) (data : List Char) : Lexer T :=
  { l with data := data, curr_pos := 0 }

/-- Step 1 of `Lexer::tok` when `skip_ws` holds: `WS.find(&self.data[self.curr_pos..])`,
and on a match `self.curr_pos = v.end() + self.curr_pos`. -/
def Lexer.wsAdvance (l : Lexer T) : Nat :=
  match WS.find (l.data.drop l.curr_pos) with
  | some mt => mt.2 + l.curr_pos
  | none => l.curr_pos

/-- The cursor after the optional whitespace step of `Lexer::tok`. -/
def Lexer.skipPos (l : Lexer T) (skip_ws : Bool) : Nat :=
  if skip_ws then l.wsAdvance else l.curr_pos

/-- `self.regex_set.matches(&self.data[pos1..]).into_iter().collect()`: the
indices of the rules whose (anchored-string) pattern matches the remaining
suffix, in ascending registration order. -/
def Lexer.matchList (l : Lexer T) (pos1 : Nat) : List Nat :=
  (List.range l.regex_set.length).filter (fun m =>
    match l.regex_set.get? m with
    | some r => r.existsMatch (l.data.drop pos1)
    | none => false)

/-- The loop body's `length` value for rule `m`:
`self.regexes[m].find(&self.data[pos1..]).unwrap().end() + pos1`
(`0` in the out-of-bounds / failed-`find` cases, which panic in `tok` itself). -/
def Lexer.ruleLen (l : Lexer T) (pos1 m : Nat) : Nat :=
  match l.regexes.get? m with
  | some re =>
    match re.find (l.data.drop pos1) with
    | some mt => mt.2 + pos1
    | none => 0
  | none => 0

/-- The `for m in matches` loop of `Lexer::tok`, folding `(longest, longest_id)`
from `(0, 0)`; `none` models the panics of the `self.regexes[m]` index and the
`.find(..).unwrap()`. -/
def Lexer.pickLoop (l : Lexer T) (pos1 : Nat) : List Nat → Nat × Nat → Option (Nat × Nat)
  | [], acc => some acc
  | m :: ms, acc =>
    match l.regexes.get? m with
    | none => none
    | some re =>
      match re.find (l.data.drop pos1) with
      | none => none
      | some mt => l.pickLoop pos1 ms (if mt.2 + pos1 > acc.1 then (mt.2 + pos1, m) else acc)

/-- The pure value of the selection loop once no step panics: fold
`(longest, longest_id)` over the match indices with the strict `>` update. -/
def pickPure (f : Nat → Nat) : List Nat → Nat × Nat → Nat × Nat
  | [], acc => acc
  | m :: ms, acc => pickPure f ms (if f m > acc.1 then (f m, m) else acc)

/-- `Lexer::tok`. The outer `Option` models a panic: `none` iff the call hits
an out-of-bounds slice/index or a failed `unwrap` (string slices such as
`&self.data[self.curr_pos..]` and `&self.data[pos1..longest]` are modelled by
their bounds checks). `some (none, l')` is a normal no-token return,
`some (some t, l')` a produced token. -/
def Lexer.tok (l : Lexer T) (skip_ws : Bool) : Option (Option T × Lexer T) :=
  if l.curr_pos ≤ l.data.length then
    let pos1 := l.skipPos skip_ws
    if pos1 ≤ l.data.length then
      let ms := l.matchList pos1
      if ms.isEmpty then some (none, { l with curr_pos := pos1 })
      else
        match l.pickLoop pos1 ms (0, 0) with
        | none => none
        | some acc =>
          match l.actions.get? acc.2 with
          | none => none
          | some act =>
            if pos1 ≤ acc.1 ∧ acc.1 ≤ l.data.length then
              some (some (act ((l.data.drop pos1).take (acc.1 - pos1))),
                    { l with curr_pos := acc.1 })
            else none
    else none
  else none

/-- `Lexer::is_eof`. -/
def Lexer.is_eof (l : Lexer T) : Bool := l.curr_pos == l.data.length

/-- Run a sequence of `tok` calls, recording the produced tokens; `none` if
any call panics. -/
def Lexer.run (l : Lexer T) : List Bool → Option (List (Option T) × Lexer T)
  | [] => some ([], l)
  | b :: bs =>
    match l.tok b with
    | none => none
    | some (t, l2) =>
      match l2.run bs with
      | none => none
      | some (ts, lf) => some (t :: ts, lf)

/-- The trace of engine states along a sequence of `tok` calls (truncated if a
call panics). -/
def Lexer.runTrace (l : Lexer T) : List Bool → List (Lexer T)
  | [] => [l]
  | b :: bs =>
    l :: (match l.tok b with
      | some (_, l2) => l2.runTrace bs
      | none => [])

/-- Conversion function: length-reporting token for the `\d+` rule. -/
def actLen : List Char → Nat := fun s => 100 + s.length

/-- Conversion function: length-reporting token for the `\w+` rule. -/
def actWord : List Char → Nat := fun s => 200 + s.length

/-- Conversion function returning the constant token 0. -/
def act0 : List Char → Nat := fun _ => 0

/-- Conversion function returning the constant token 1. -/
def act1 : List Char → Nat := fun _ => 1

/-- Conversion function returning the constant token 2. -/
def act2 : List Char → Nat := fun _ => 2

/-- Default engine value used only as the `getD` fallback of concrete builds. -/
def emptyLexN : Lexer Nat :=
  { regex_set := [], regexes := [], actions := [], data := [], curr_pos := 0 }

/-- Default engine value used only as the `getD` fallback of concrete builds. -/
def emptyLexS : Lexer (List Char) :=
  { regex_set := [], regexes := [], actions := [], data := [], curr_pos := 0 }

/-- A builder with the single rule `\d+`. -/
def numBld : LexerBuilder Nat := (LexerBuilder.new Nat).push ['\\', 'd', '+'] actLen

/-- The engine built from `numBld`. -/
def numLex : Lexer Nat := (numBld.build).getD emptyLexN

/-- A builder with the rules `\d+` then `\w+`. -/
def exBld : LexerBuilder Nat :=
  ((LexerBuilder.new Nat).push ['\\', 'd', '+'] actLen).push ['\\', 'w', '+'] actWord

/-- The engine built from `exBld`. -/
def exLex : Lexer Nat := (exBld.build).getD emptyLexN

/-- A builder with the rules `a`, `x*`, `y*` in that order. -/
def quirkBld : LexerBuilder Nat :=
  (((LexerBuilder.new Nat).push ['a'] act0).push ['x', '*'] act1).push ['y', '*'] act2

/-- The engine built from `quirkBld`. -/
def quirkLex : Lexer Nat := (quirkBld.build).getD emptyLexN

/-- A builder with the single rule `a|b` (top-level alternation). -/
def altBld : LexerBuilder (List Char) :=
  (LexerBuilder.new (List Char)).push ['a', '|', 'b'] (fun s => s)

/-- The engine built from `altBld`. -/
def altLex : Lexer (List Char) := (altBld.build).getD emptyLexS

/-- The compiled form of the anchored pattern string `"^a|b"`. -/
def reAB : RE := (Regex.new ['^', 'a', '|', 'b']).getD .eps

theorem reSize_pos (r : RE) : 0 < reSize r := by
  cases r <;> simp [reSize]

theorem flatMap_congr_mem {α β : Type} {l : List α} {f g : α → List β}
    (h : ∀ a ∈ l, f a = g a) : l.flatMap f = l.flatMap g := by
  induction l with
  | nil => rfl
  | cons a l ih =>
    simp only [List.flatMap_cons]
    rw [h a (by simp), ih (fun x hx => h x (by simp [hx]))]

theorem le_of_mem_matchEnds :
    ∀ (fuel : Nat) (r : RE) (s : List Char) (i e : Nat),
      e ∈ matchEnds fuel r s i → i ≤ e := by
  intro fuel
  induction fuel with
  | zero => intro r s i e h; simp [matchEnds] at h
  | succ fuel ih =>
    intro r s i e h
    cases r with
    | eps => simp [matchEnds] at h; omega
    | anchor =>
      simp only [matchEnds] at h
      split at h <;> simp at h
      omega
    | cls p =>
      simp only [matchEnds] at h
      rcases hg : s.get? i with _ | c <;> rw [hg] at h
      · simp at h
      · split at h <;> simp at h
        omega
    | alt r₁ r₂ =>
      simp only [matchEnds, List.mem_append] at h
      rcases h with h | h
      · exact ih r₁ s i e h
      · exact ih r₂ s i e h
    | seq r₁ r₂ =>
      simp only [matchEnds, List.mem_flatMap] at h
      obtain ⟨j, hj, he⟩ := h
      exact le_trans (ih r₁ s i j hj) (ih r₂ s j e he)
    | star r₁ =>
      simp only [matchEnds, List.mem_append, List.mem_flatMap, List.mem_filter] at h
      rcases h with ⟨j, ⟨_, hij⟩, he⟩ | h
      · have h2 := ih (.star r₁) s j e he
        simp at hij
        omega
      · simp at h
        omega

theorem mem_matchEnds_le_max :
    ∀ (fuel : Nat) (r : RE) (s : List Char) (i e : Nat),
      e ∈ matchEnds fuel r s i → e ≤ max i s.length := by
  intro fuel
  induction fuel with
  | zero => intro r s i e h; simp [matchEnds] at h
  | succ fuel ih =>
    intro r s i e h
    cases r with
    | eps => simp [matchEnds] at h; omega
    | anchor =>
      simp only [matchEnds] at h
      split at h <;> simp at h
      omega
    | cls p =>
      simp only [matchEnds] at h
      rcases hg : s.get? i with _ | c <;> rw [hg] at h
      · simp at h
      · split at h <;> simp at h
        have : i < s.length := List.get?_eq_some.mp hg |>.choose
        omega
    | alt r₁ r₂ =>
      simp only [matchEnds, List.mem_append] at h
      rcases h with h | h
      · exact ih r₁ s i e h
      · exact ih r₂ s i e h
    | seq r₁ r₂ =>
      simp only [matchEnds, List.mem_flatMap] at h
      obtain ⟨j, hj, he⟩ := h
      have h1 := ih r₁ s i j hj
      have h2 := ih r₂ s j e he
      omega
    | star r₁ =>
      simp only [matchEnds, List.mem_append, List.mem_flatMap, List.mem_filter] at h
      rcases h with ⟨j, ⟨hj, hij⟩, he⟩ | h
      · have h1 := ih r₁ s i j hj
        have h2 := ih (.star r₁) s j e he
        simp at hij
        omega
      · simp at h
        omega

theorem matchEnds_stab :
    ∀ (f₁ f₂ : Nat) (r : RE) (s : List Char) (i : Nat),
      reSize r + (s.length + 1 - i) ≤ f₁ → reSize r + (s.length + 1 - i) ≤ f₂ →
      matchEnds f₁ r s i = matchEnds f₂ r s i := by
  intro f₁
  induction f₁ with
  | zero =>
    intro f₂ r s i h1 h2
    have := reSize_pos r
    omega
  | succ f₁ ih =>
    intro f₂ r s i h1 h2
    obtain ⟨f₂, rfl⟩ : ∃ g, f₂ = g + 1 := ⟨f₂ - 1, by have := reSize_pos r; omega⟩
    cases r with
    | eps => simp [matchEnds]
    | anchor => simp [matchEnds]
    | cls p => simp [matchEnds]
    | alt r₁ r₂ =>
      simp only [matchEnds]
      simp only [reSize] at h1 h2
      rw [ih f₂ r₁ s i (by omega) (by omega), ih f₂ r₂ s i (by omega) (by omega)]
    | seq r₁ r₂ =>
      simp only [matchEnds]
      simp only [reSize] at h1 h2
      rw [ih f₂ r₁ s i (by omega) (by omega)]
      apply flatMap_congr_mem
      intro j hj
      have hij : i ≤ j := le_of_mem_matchEnds f₂ r₁ s i j hj
      exact ih f₂ r₂ s j (by omega) (by omega)
    | star r₁ =>
      simp only [matchEnds]
      simp only [reSize] at h1 h2
      rw [ih f₂ r₁ s i (by omega) (by omega)]
      congr 1
      apply flatMap_congr_mem
      intro j hj
      simp only [List.mem_filter, decide_eq_true_eq] at hj
      obtain ⟨hjm, hij⟩ := hj
      have hmax : j ≤ max i s.length := mem_matchEnds_le_max f₂ r₁ s i j hjm
      have hjl : j ≤ s.length := by omega
      exact ih (f₂) (.star r₁) s j (by simp [reSize]; omega) (by simp [reSize]; omega)

theorem matchEnds_eq_ends (fuel : Nat) (r : RE) (s : List Char) (i : Nat)
    (h : reSize r + (s.length + 1 - i) ≤ fuel) : matchEnds fuel r s i = r.ends s i := by
  apply matchEnds_stab
  · exact h
  · simp [RE.fuelFor]
    omega

theorem le_of_mem_ends {r : RE} {s : List Char} {i e : Nat} (h : e ∈ r.ends s i) : i ≤ e :=
  le_of_mem_matchEnds _ r s i e h

theorem mem_ends_le_max {r : RE} {s : List Char} {i e : Nat} (h : e ∈ r.ends s i) :
    e ≤ max i s.length :=
  mem_matchEnds_le_max _ r s i e h

theorem find_eq_some_bounds {r : RE} {s : List Char} {st en : Nat}
    (h : r.find s = some (st, en)) : st ≤ en ∧ en ≤ s.length ∧ st ≤ s.length := by
  simp only [RE.find] at h
  obtain ⟨i, hi, hf⟩ := List.exists_of_findSome?_eq_some h
  simp only [List.mem_range] at hi
  rcases hh : (r.ends s i).head? with _ | e
  · rw [hh] at hf; simp at hf
  · rw [hh] at hf
    simp only [Option.map_some', Option.some.injEq, Prod.mk.injEq] at hf
    obtain ⟨rfl, rfl⟩ := hf
    have hm := List.mem_of_mem_head? hh
    have h1 := le_of_mem_ends hm
    have h2 := mem_ends_le_max hm
    omega

theorem find_isSome_of_existsMatch {r : RE} {s : List Char} (h : r.existsMatch s = true) :
    (r.find s).isSome = true := by
  simp only [RE.existsMatch, List.any_eq_true] at h
  obtain ⟨i, hi, hne⟩ := h
  rw [Option.isSome_iff_ne_none]
  intro hnone
  simp only [RE.find] at hnone
  rw [List.findSome?_eq_none_iff] at hnone
  have := hnone i hi
  simp only [Bool.not_eq_true', Bool.not_eq_false] at hne
  rcases hh : (r.ends s i).head? with _ | e
  · rw [List.head?_eq_none_iff] at hh
    rw [hh] at hne
    simp at hne
  · rw [hh] at this
    simp at this

theorem ends_eps (s : List Char) (i : Nat) : RE.eps.ends s i = [i] := by
  simp only [RE.ends, RE.fuelFor, reSize, matchEnds]

theorem ends_anchor (s : List Char) (i : Nat) :
    RE.anchor.ends s i = if i = 0 then [i] else [] := by
  simp only [RE.ends, RE.fuelFor, reSize, matchEnds]

theorem ends_cls (p : Char → Bool) (s : List Char) (i : Nat) :
    (RE.cls p).ends s i =
      match s.get? i with
      | some c => if p c then [i + 1] else []
      | none => [] := by
  simp only [RE.ends, RE.fuelFor, reSize, matchEnds]

theorem ends_alt (a b : RE) (s : List Char) (i : Nat) :
    (RE.alt a b).ends s i = a.ends s i ++ b.ends s i := by
  have ha := reSize_pos a
  have hb := reSize_pos b
  have h : (RE.alt a b).ends s i =
      matchEnds (reSize a + reSize b + 1 + s.length) a s i ++
      matchEnds (reSize a + reSize b + 1 + s.length) b s i := rfl
  rw [h, matchEnds_eq_ends _ a s i (by omega), matchEnds_eq_ends _ b s i (by omega)]

theorem ends_seq (a b : RE) (s : List Char) (i : Nat) :
    (RE.seq a b).ends s i = (a.ends s i).flatMap (fun j => b.ends s j) := by
  have ha := reSize_pos a
  have hb := reSize_pos b
  have h : (RE.seq a b).ends s i =
      (matchEnds (reSize a + reSize b + 1 + s.length) a s i).flatMap
        (fun j => matchEnds (reSize a + reSize b + 1 + s.length) b s j) := rfl
  rw [h, matchEnds_eq_ends _ a s i (by omega)]
  apply flatMap_congr_mem
  intro j hj
  exact matchEnds_eq_ends _ b s j (by omega)

theorem ends_star (a : RE) (s : List Char) (i : Nat) :
    (RE.star a).ends s i =
      ((a.ends s i).filter (fun j => i < j)).flatMap (fun j => (RE.star a).ends s j) ++ [i] := by
  have ha := reSize_pos a
  have h : (RE.star a).ends s i =
      ((matchEnds (reSize a + 1 + s.length) a s i).filter (fun j => i < j)).flatMap
        (fun j => matchEnds (reSize a + 1 + s.length) (RE.star a) s j) ++ [i] := rfl
  rw [h, matchEnds_eq_ends _ a s i (by omega)]
  congr 1
  apply flatMap_congr_mem
  intro j hj
  simp only [List.mem_filter, decide_eq_true_eq] at hj
  exact matchEnds_eq_ends _ (RE.star a) s j (by simp only [reSize]; omega)

theorem WS_eq : WS = RE.seq .anchor (.seq (.cls isWsChar) .eps) := rfl

theorem find_WS (s : List Char) :
    WS.find s =
      match s.head? with
      | some c => if isWsChar c then some (0, 1) else none
      | none => none := by
  cases s with
  | nil => decide
  | cons c t =>
    simp only [List.head?_cons]
    have h0 : WS.ends (c :: t) 0 = if isWsChar c then [1] else [] := by
      rw [WS_eq]
      cases hws : isWsChar c <;>
        simp [ends_seq, ends_anchor, ends_cls, ends_eps, hws]
    have hsucc : ∀ i : Nat, WS.ends (c :: t) (i + 1) = [] := by
      intro i
      rw [WS_eq]
      simp [ends_seq, ends_anchor]
    simp only [RE.find]
    rw [show (c :: t).length + 1 = (t.length + 1) + 1 from by simp]
    rw [List.range_succ_eq_map]
    rw [List.findSome?_cons]
    cases hws : isWsChar c
    · have : ((WS.ends (c :: t) 0).head?.map (fun e => (0, e))) = none := by
        rw [h0, hws]
        rfl
      rw [this]
      have hrest : List.findSome? (fun i => Option.map (fun e => (i, e)) (WS.ends (c :: t) i).head?)
          (List.map Nat.succ (List.range (t.length + 1))) = none := by
        rw [List.findSome?_eq_none_iff]
        intro x hx
        simp only [List.mem_map] at hx
        obtain ⟨i, _, rfl⟩ := hx
        rw [show Nat.succ i = i + 1 from rfl, hsucc i]
        rfl
      simp [hrest]
    · have : ((WS.ends (c :: t) 0).head?.map (fun e => (0, e))) = some (0, 1) := by
        rw [h0, hws]
        rfl
      rw [this]
      simp

theorem drop_head?_eq_get? (l : List Char) (n : Nat) : (l.drop n).head? = l.get? n := by
  rw [← List.get?_zero, List.get?_drop]
  rfl

theorem wsAdvance_eq (l : Lexer T) :
    l.wsAdvance =
      if (l.data.get? l.curr_pos).any isWsChar then l.curr_pos + 1 else l.curr_pos := by
  unfold Lexer.wsAdvance
  rw [find_WS, drop_head?_eq_get?]
  cases hg : l.data.get? l.curr_pos with
  | none => simp [Option.any]
  | some c =>
    cases hws : isWsChar c <;> simp [Option.any, hws] <;> omega

theorem le_wsAdvance (l : Lexer T) : l.curr_pos ≤ l.wsAdvance := by
  rw [wsAdvance_eq]
  split <;> omega

theorem wsAdvance_le (l : Lexer T) (h : l.curr_pos ≤ l.data.length) :
    l.wsAdvance ≤ l.data.length := by
  rw [wsAdvance_eq]
  split
  · next hany =>
    rcases hg : l.data.get? l.curr_pos with _ | c
    · rw [hg] at hany
      simp [Option.any] at hany
    · have : l.curr_pos < l.data.length := List.get?_eq_some.mp hg |>.choose
      omega
  · exact h

theorem le_skipPos (l : Lexer T) (sw : Bool) : l.curr_pos ≤ l.skipPos sw := by
  unfold Lexer.skipPos
  split
  · exact le_wsAdvance l
  · exact le_rfl

theorem skipPos_le (l : Lexer T) (sw : Bool) (h : l.curr_pos ≤ l.data.length) :
    l.skipPos sw ≤ l.data.length := by
  unfold Lexer.skipPos
  split
  · exact wsAdvance_le l h
  · exact h

theorem skipPos_le_one (l : Lexer T) (sw : Bool) : l.skipPos sw ≤ l.curr_pos + 1 := by
  unfold Lexer.skipPos
  split
  · rw [wsAdvance_eq]
    split <;> omega
  · omega

theorem pickPure_fst_le (f : Nat → Nat) :
    ∀ (ms : List Nat) (acc : Nat × Nat), acc.1 ≤ (pickPure f ms acc).1 := by
  intro ms
  induction ms with
  | nil => intro acc; simp [pickPure]
  | cons m ms ih =>
    intro acc
    simp only [pickPure]
    split
    · next h => exact le_trans (le_of_lt h) (ih (f m, m))
    · exact ih acc

theorem pickPure_le (f : Nat → Nat) :
    ∀ (ms : List Nat) (acc : Nat × Nat) (m : Nat), m ∈ ms → f m ≤ (pickPure f ms acc).1 := by
  intro ms
  induction ms with
  | nil => intro acc m hm; simp at hm
  | cons m' ms ih =>
    intro acc m hm
    simp only [pickPure]
    rcases List.mem_cons.mp hm with rfl | hm
    · split
      · next h => exact pickPure_fst_le f ms (f m, m)
      · next h => exact le_trans (by omega) (pickPure_fst_le f ms acc)
    · split
      · exact ih _ m hm
      · exact ih _ m hm

theorem pickPure_spec (f : Nat → Nat) :
    ∀ (ms : List Nat) (acc : Nat × Nat),
      (pickPure f ms acc = acc ∧ ∀ m ∈ ms, f m ≤ acc.1) ∨
      (∃ ms₁ ms₂, ms = ms₁ ++ (pickPure f ms acc).2 :: ms₂ ∧
        f (pickPure f ms acc).2 = (pickPure f ms acc).1 ∧
        acc.1 < (pickPure f ms acc).1 ∧
        (∀ m ∈ ms₁, f m < (pickPure f ms acc).1)) := by
  intro ms
  induction ms with
  | nil => intro acc; exact Or.inl ⟨rfl, by simp⟩
  | cons m ms ih =>
    intro acc
    by_cases h : f m > acc.1
    · have hstep : pickPure f (m :: ms) acc = pickPure f ms (f m, m) := by
        simp only [pickPure, if_pos h]
      rcases ih (f m, m) with ⟨heq, hall⟩ | ⟨ms₁, ms₂, hsplit, hfw, hlt, hless⟩
      · refine Or.inr ⟨[], ms, ?_, ?_, ?_, by simp⟩
        · simp only [hstep, heq, List.nil_append]
        · simp only [hstep, heq]
        · simp only [hstep, heq]; exact h
      · refine Or.inr ⟨m :: ms₁, ms₂, ?_, ?_, ?_, ?_⟩
        · simp only [hstep, List.cons_append]
          exact congrArg (m :: ·) hsplit
        · simp only [hstep]; exact hfw
        · simp only [hstep]; omega
        · intro m' hm'
          rcases List.mem_cons.mp hm' with rfl | hm'
          · simp only [hstep]; omega
          · simp only [hstep]; exact hless m' hm'
    · have hstep : pickPure f (m :: ms) acc = pickPure f ms acc := by
        simp only [pickPure, if_neg h]
      rcases ih acc with ⟨heq, hall⟩ | ⟨ms₁, ms₂, hsplit, hfw, hlt, hless⟩
      · refine Or.inl ⟨by rw [hstep, heq], ?_⟩
        intro m' hm'
        rcases List.mem_cons.mp hm' with rfl | hm'
        · omega
        · exact hall m' hm'
      · refine Or.inr ⟨m :: ms₁, ms₂, ?_, ?_, ?_, ?_⟩
        · simp only [hstep, List.cons_append]
          exact congrArg (m :: ·) hsplit
        · simp only [hstep]; exact hfw
        · simp only [hstep]; exact hlt
        · intro m' hm'
          rcases List.mem_cons.mp hm' with rfl | hm'
          · simp only [hstep]; omega
          · simp only [hstep]; exact hless m' hm'

theorem pickPure_all_zero (f : Nat → Nat) :
    ∀ (ms : List Nat), (∀ m ∈ ms, f m = 0) → pickPure f ms (0, 0) = (0, 0) := by
  intro ms h
  induction ms with
  | nil => rfl
  | cons m ms ih =>
    have hm : f m = 0 := h m (by simp)
    simp only [pickPure, hm]
    exact ih (fun m' hm' => h m' (by simp [hm']))

theorem pickLoop_eq_pickPure (l : Lexer T) (pos1 : Nat) :
    ∀ (ms : List Nat) (acc : Nat × Nat),
      (∀ m ∈ ms, ∃ re, l.regexes.get? m = some re ∧
        (re.find (l.data.drop pos1)).isSome = true) →
      l.pickLoop pos1 ms acc = some (pickPure (l.ruleLen pos1) ms acc) := by
  intro ms
  induction ms with
  | nil => intro acc _; rfl
  | cons m ms ih =>
    intro acc h
    obtain ⟨re, hre, hfind⟩ := h m (by simp)
    rw [Option.isSome_iff_exists] at hfind
    obtain ⟨mt, hmt⟩ := hfind
    simp only [Lexer.pickLoop, hre, hmt]
    rw [ih _ (fun m' hm' => h m' (List.mem_cons_of_mem _ hm'))]
    have hf : l.ruleLen pos1 m = mt.2 + pos1 := by
      simp only [Lexer.ruleLen, hre, hmt]
    simp only [pickPure, hf]

theorem compileAll_eq_none_iff :
    ∀ (ps : List (List Char)),
      compileAll ps = none ↔ ∃ p ∈ ps, Regex.new ('^' :: p) = none := by
  intro ps
  induction ps with
  | nil => simp [compileAll]
  | cons p ps ih =>
    rcases hp : Regex.new ('^' :: p) with _ | r
    · simp only [compileAll, hp]
      constructor
      · intro _
        exact ⟨p, by simp, hp⟩
      · intro _
        trivial
    · simp only [compileAll, hp]
      rcases hc : compileAll ps with _ | rs
      · constructor
        · intro _
          obtain ⟨p', hp', hn⟩ := ih.mp hc
          exact ⟨p', by simp [hp'], hn⟩
        · intro _
          rfl
      · constructor
        · intro h
          simp at h
        · intro ⟨p', hp', hn⟩
          rcases List.mem_cons.mp hp' with rfl | hp'
          · rw [hp] at hn
            cases hn
          · rw [ih.mpr ⟨p', hp', hn⟩] at hc
            cases hc

theorem compileAll_some_length :
    ∀ (ps : List (List Char)) (rs : List RE),
      compileAll ps = some rs → rs.length = ps.length := by
  intro ps
  induction ps with
  | nil =>
    intro rs h
    cases h
    rfl
  | cons p ps ih =>
    intro rs h
    rcases hp : Regex.new ('^' :: p) with _ | r
    · simp only [compileAll, hp] at h
      cases h
    · simp only [compileAll, hp] at h
      rcases hc : compileAll ps with _ | rs'
      · rw [hc] at h
        cases h
      · rw [hc] at h
        cases h
        simp [ih rs' hc]

theorem parseAtom_length :
    ∀ (cs : List Char) (r : RE) (rep : Bool) (rest : List Char),
      parseAtom cs = some (r, rep, rest) → rest.length < cs.length := by
  intro cs r rep rest h
  unfold parseAtom at h
  split at h <;> (try (repeat' (split at h))) <;> simp_all <;> omega

theorem parseItems_length :
    ∀ (fuel : Nat) (cs : List Char) (r : RE) (rest : List Char),
      parseItems fuel cs = some (r, rest) → rest.length ≤ cs.length := by
  intro fuel
  induction fuel with
  | zero => intro cs r rest h; simp [parseItems] at h
  | succ fuel ih =>
    intro cs r rest h
    rcases ha : parseAtom cs with _ | ⟨r0, rep, rest0⟩
    · simp only [parseItems, ha] at h
      cases h
      exact le_rfl
    · have hlen := parseAtom_length cs r0 rep rest0 ha
      simp only [parseItems, ha] at h
      split at h <;> (try (split at h)) <;>
        first
        | cases h
        | (rw [Option.map_eq_some'] at h
           obtain ⟨⟨r1, rest3⟩, hp, heq⟩ := h
           cases heq
           have hle := ih _ _ _ hp
           simp only [List.length_cons] at *
           omega)

theorem parseItems_stab :
    ∀ (f₁ f₂ : Nat) (cs : List Char), cs.length < f₁ → cs.length < f₂ →
      parseItems f₁ cs = parseItems f₂ cs := by
  intro f₁
  induction f₁ with
  | zero =>
    intro f₂ cs h1 h2
    omega
  | succ f₁ ih =>
    intro f₂ cs h1 h2
    obtain ⟨f₂, rfl⟩ : ∃ g, f₂ = g + 1 := ⟨f₂ - 1, by omega⟩
    rcases ha : parseAtom cs with _ | ⟨r0, rep, rest0⟩
    · simp only [parseItems, ha]
    · have hlen := parseAtom_length cs r0 rep rest0 ha
      simp only [parseItems, ha]
      split <;> (try cases rep) <;>
        first
        | rfl
        | rw [ih f₂ _ (by (try simp only [List.length_cons] at *); omega)
              (by (try simp only [List.length_cons] at *); omega)]
        | (split <;> simp_all)

theorem parseAlt_stab :
    ∀ (f₁ f₂ : Nat) (cs : List Char), cs.length < f₁ → cs.length < f₂ →
      parseAlt f₁ cs = parseAlt f₂ cs := by
  intro f₁
  induction f₁ with
  | zero =>
    intro f₂ cs h1 h2
    omega
  | succ f₁ ih =>
    intro f₂ cs h1 h2
    obtain ⟨f₂, rfl⟩ : ∃ g, f₂ = g + 1 := ⟨f₂ - 1, by omega⟩
    simp only [parseAlt]
    rcases hi : parseItems (cs.length + 1) cs with _ | ⟨r, rest⟩
    · rfl
    · have hle := parseItems_length _ _ _ _ hi
      (try dsimp only)
      split <;>
        first
        | rfl
        | rw [ih f₂ _ (by (try simp only [List.length_cons] at *); omega)
              (by (try simp only [List.length_cons] at *); omega)]
        | (split <;> simp_all)

theorem isSome_map {α β : Type} (f : α → β) (x : Option α) :
    (x.map f).isSome = x.isSome := by
  cases x <;> rfl

theorem parseItems_anchor (c : Char) (q : List Char)
    (h1 : ¬c = '*') (h2 : ¬c = '+') (h3 : ¬c = '?') :
    parseItems ((q.length + 2) + 1) ('^' :: c :: q) =
      (parseItems (q.length + 2) (c :: q)).map (fun p => (RE.seq RE.anchor p.1, p.2)) := by
  conv_lhs => rw [parseItems]
  rw [show parseAtom ('^' :: c :: q) = some (RE.anchor, false, c :: q) from rfl]
  split
  · rename_i heq
    cases heq
  · rename_i heq
    injection heq with heq
    injection heq with hr heq
    injection heq with hrep hrest
    subst hr
    subst hrep
    subst hrest
    split
    · simp_all
    · simp_all
    · simp_all
    · rfl

theorem new_anchor_isSome (p : List Char) :
    (Regex.new ('^' :: p)).isSome = (Regex.new p).isSome := by
  rcases p with _ | ⟨c, q⟩
  · rfl
  · by_cases h1 : c = '*'
    · subst h1
      rfl
    by_cases h2 : c = '+'
    · subst h2
      rfl
    by_cases h3 : c = '?'
    · subst h3
      rfl
    by_cases h4 : c = '|'
    · subst h4
      have hL : Regex.new ('^' :: '|' :: q) =
          (parseAlt (q.length + 2) q).map (fun r2 => RE.alt (RE.seq RE.anchor RE.eps) r2) := rfl
      have hR : Regex.new ('|' :: q) =
          (parseAlt (q.length + 1) q).map (fun r2 => RE.alt RE.eps r2) := rfl
      rw [hL, hR, parseAlt_stab (q.length + 2) (q.length + 1) q (by omega) (by omega),
        isSome_map, isSome_map]
    · have hL : Regex.new ('^' :: c :: q) =
          match (parseItems (q.length + 2) (c :: q)).map (fun p => (RE.seq RE.anchor p.1, p.2)) with
          | none => none
          | some (r, rest) =>
            match rest with
            | [] => some r
            | '|' :: rest2 => (parseAlt (q.length + 2) rest2).map (fun r2 => RE.alt r r2)
            | _ => none := by
        conv_lhs =>
          rw [show Regex.new ('^' :: c :: q) =
            parseAlt ((q.length + 2) + 1) ('^' :: c :: q) from rfl]
          rw [parseAlt]
        rw [show ('^' :: c :: q).length + 1 = (q.length + 2) + 1 from by simp]
        rw [parseItems_anchor c q h1 h2 h3]
      have hR : Regex.new (c :: q) =
          match parseItems (q.length + 2) (c :: q) with
          | none => none
          | some (r, rest) =>
            match rest with
            | [] => some r
            | '|' :: rest2 => (parseAlt (q.length + 1) rest2).map (fun r2 => RE.alt r r2)
            | _ => none := by
        conv_lhs =>
          rw [show Regex.new (c :: q) =
            parseAlt ((q.length + 1) + 1) (c :: q) from rfl]
          rw [parseAlt]
        rw [show (c :: q).length + 1 = q.length + 2 from by simp]
      rw [hL, hR]
      rcases hi : parseItems (q.length + 2) (c :: q) with _ | ⟨r, rest⟩
      · rfl
      · have hle := parseItems_length _ _ _ _ hi
        simp only [Option.map_some']
        rcases rest with _ | ⟨c2, rest2⟩
        · rfl
        · by_cases h5 : c2 = '|'
          · subst h5
            simp only [List.length_cons] at hle
            show ((parseAlt (q.length + 2) rest2).map (fun r2 => RE.alt (RE.seq RE.anchor r) r2)).isSome =
              ((parseAlt (q.length + 1) rest2).map (fun r2 => RE.alt r r2)).isSome
            rw [parseAlt_stab (q.length + 2) (q.length + 1) rest2 (by omega) (by omega),
              isSome_map, isSome_map]
          · have hgoalL : (match ((c2 :: rest2) : List Char) with
                | [] => some (RE.seq RE.anchor r)
                | '|' :: rest3 => (parseAlt (q.length + 2) rest3).map
                    (fun r2 => RE.alt (RE.seq RE.anchor r) r2)
                | _ => none) = none := by
              split <;> simp_all
            have hgoalR : (match ((c2 :: rest2) : List Char) with
                | [] => some r
                | '|' :: rest3 => (parseAlt (q.length + 1) rest3).map (fun r2 => RE.alt r r2)
                | _ => none) = none := by
              split <;> simp_all
            rw [hgoalL, hgoalR]

theorem tok_some_fields {l : Lexer T} {sw : Bool} {t : Option T} {l2 : Lexer T}
    (h : l.tok sw = some (t, l2)) :
    l2.regex_set = l.regex_set ∧ l2.regexes = l.regexes ∧ l2.actions = l.actions ∧
      l2.data = l.data ∧ l.curr_pos ≤ l2.curr_pos ∧ l2.curr_pos ≤ l.data.length := by
  have hsp := le_skipPos l sw
  unfold Lexer.tok at h
  dsimp only at h
  split at h
  · split at h
    · rename_i hcur hpos
      split at h
      · injection h with h
        injection h with ht hl
        subst hl
        exact ⟨rfl, rfl, rfl, rfl, hsp, hpos⟩
      · split at h
        · cases h
        · split at h
          · cases h
          · split at h
            · rename_i hb
              injection h with h
              injection h with ht hl
              subst hl
              exact ⟨rfl, rfl, rfl, rfl, le_trans hsp hb.1, hb.2⟩
            · cases h
    · cases h
  · cases h

theorem mem_matchList {l : Lexer T} {pos1 m : Nat} :
    m ∈ l.matchList pos1 ↔
      m < l.regex_set.length ∧
        ∃ re, l.regex_set.get? m = some re ∧ re.existsMatch (l.data.drop pos1) = true := by
  simp only [Lexer.matchList, List.mem_filter, List.mem_range]
  constructor
  · intro ⟨hlt, hm⟩
    refine ⟨hlt, ?_⟩
    rcases hg : l.regex_set.get? m with _ | re
    · rw [hg] at hm
      simp at hm
    · rw [hg] at hm
      exact ⟨re, rfl, by simpa using hm⟩
  · intro ⟨hlt, re, hg, hex⟩
    exact ⟨hlt, by rw [hg]; simpa using hex⟩

theorem matchList_find_isSome {l : Lexer T} {pos1 m : Nat}
    (hrr : l.regexes = l.regex_set) (hm : m ∈ l.matchList pos1) :
    ∃ re, l.regexes.get? m = some re ∧
      (re.find (l.data.drop pos1)).isSome = true := by
  obtain ⟨hlt, re, hg, hex⟩ := mem_matchList.mp hm
  exact ⟨re, by rw [hrr]; exact hg, find_isSome_of_existsMatch hex⟩

theorem ruleLen_bounds {l : Lexer T} {pos1 m : Nat}
    (hre : ∃ re, l.regexes.get? m = some re ∧
      (re.find (l.data.drop pos1)).isSome = true)
    (hp : pos1 ≤ l.data.length) :
    pos1 ≤ l.ruleLen pos1 m ∧ l.ruleLen pos1 m ≤ l.data.length := by
  obtain ⟨re, hg, hf⟩ := hre
  rw [Option.isSome_iff_exists] at hf
  obtain ⟨⟨st, en⟩, hmt⟩ := hf
  have hb := find_eq_some_bounds hmt
  have hdl : (l.data.drop pos1).length = l.data.length - pos1 := List.length_drop pos1 l.data
  simp only [Lexer.ruleLen, hg, hmt]
  omega

theorem tok_isSome_of_wf {l : Lexer T} (hrr : l.regexes = l.regex_set)
    (hal : l.actions.length = l.regex_set.length) (hcur : l.curr_pos ≤ l.data.length)
    (sw : Bool) : (l.tok sw).isSome = true := by
  unfold Lexer.tok
  dsimp only
  rw [if_pos hcur, if_pos (skipPos_le l sw hcur)]
  split
  · rfl
  · rename_i hne
    have hmem : ∀ m ∈ l.matchList (l.skipPos sw), ∃ re, l.regexes.get? m = some re ∧
        (re.find (l.data.drop (l.skipPos sw))).isSome = true :=
      fun m hm => matchList_find_isSome hrr hm
    rw [pickLoop_eq_pickPure l (l.skipPos sw) _ _ hmem]
    have hnonempty : l.matchList (l.skipPos sw) ≠ [] := by
      intro hc
      rw [hc] at hne
      simp at hne
    obtain ⟨m0, hm0⟩ := List.exists_mem_of_ne_nil _ hnonempty
    have hm0lt : m0 < l.regex_set.length := (mem_matchList.mp hm0).1
    have hple : l.skipPos sw ≤ l.data.length := skipPos_le l sw hcur
    have hb0 := ruleLen_bounds (hmem m0 hm0) hple
    have hle0 := pickPure_le (l.ruleLen (l.skipPos sw)) (l.matchList (l.skipPos sw)) (0, 0) m0 hm0
    have hspec := pickPure_spec (l.ruleLen (l.skipPos sw)) (l.matchList (l.skipPos sw)) (0, 0)
    generalize hacc0 : pickPure (l.ruleLen (l.skipPos sw)) (l.matchList (l.skipPos sw)) (0, 0) =
      acc0 at hle0 hspec ⊢
    have hacc1 : l.skipPos sw ≤ acc0.1 := by
      omega
    have hacc2 : acc0.1 ≤ l.data.length := by
      rcases hspec with ⟨heq, _⟩ | ⟨ms₁, ms₂, hsplit, hfw, _, _⟩
      · rw [heq]
        exact Nat.zero_le _
      · have hin : acc0.2 ∈ ms₁ ++ acc0.2 :: ms₂ :=
          List.mem_append_right _ (List.mem_cons_self _ _)
        rw [← hsplit] at hin
        have hb := ruleLen_bounds (hmem _ hin) hple
        rw [← hfw]
        exact hb.2
    have hacc2lt : acc0.2 < l.actions.length := by
      rcases hspec with ⟨heq, _⟩ | ⟨ms₁, ms₂, hsplit, _, _, _⟩
      · rw [heq]
        show 0 < l.actions.length
        omega
      · have hin : acc0.2 ∈ ms₁ ++ acc0.2 :: ms₂ :=
          List.mem_append_right _ (List.mem_cons_self _ _)
        rw [← hsplit] at hin
        have := (mem_matchList.mp hin).1
        omega
    rcases hact : l.actions.get? acc0.2 with _ | act
    · rw [List.get?_eq_none] at hact
      omega
    · show (match l.actions.get? acc0.2 with
          | none => none
          | some act =>
            if l.skipPos sw ≤ acc0.1 ∧ acc0.1 ≤ l.data.length then
              some (some (act ((l.data.drop (l.skipPos sw)).take (acc0.1 - l.skipPos sw))),
                { l with curr_pos := acc0.1 })
            else none).isSome = true
      rw [hact]
      show (if l.skipPos sw ≤ acc0.1 ∧ acc0.1 ≤ l.data.length then
          some (some (act ((l.data.drop (l.skipPos sw)).take (acc0.1 - l.skipPos sw))),
            { l with curr_pos := acc0.1 })
          else none).isSome = true
      rw [if_pos ⟨hacc1, hacc2⟩]
      rfl

theorem run_some_fields {l : Lexer T} {fs : List Bool} {ts : List (Option T)} {lf : Lexer T}
    (h : l.run fs = some (ts, lf)) :
    lf.regex_set = l.regex_set ∧ lf.regexes = l.regexes ∧ lf.actions = l.actions := by
  induction fs generalizing l ts with
  | nil =>
    unfold Lexer.run at h
    injection h with h
    injection h with ht hl
    subst hl
    exact ⟨rfl, rfl, rfl⟩
  | cons b bs ih =>
    unfold Lexer.run at h
    rcases htok : l.tok b with _ | ⟨t, l2⟩
    · rw [htok] at h
      exact Option.noConfusion h
    · rw [htok] at h
      replace h : (match l2.run bs with
          | none => none
          | some (ts2, lf2) => some (t :: ts2, lf2)) = some (ts, lf) := h
      rcases hrun : l2.run bs with _ | ⟨ts2, lf2⟩
      · rw [hrun] at h
        exact Option.noConfusion h
      · rw [hrun] at h
        injection h with h
        injection h with ht hl
        subst hl
        obtain ⟨h1, h2, h3, _, _, _⟩ := tok_some_fields htok
        obtain ⟨g1, g2, g3⟩ := ih hrun
        exact ⟨g1.trans h1, g2.trans h2, g3.trans h3⟩

theorem run_isSome_of_wf {l : Lexer T} (hrr : l.regexes = l.regex_set)
    (hal : l.actions.length = l.regex_set.length) (hcur : l.curr_pos ≤ l.data.length) :
    ∀ (fs : List Bool), (l.run fs).isSome = true := by
  intro fs
  induction fs generalizing l with
  | nil => rfl
  | cons b bs ih =>
    unfold Lexer.run
    rcases htok : l.tok b with _ | ⟨t, l2⟩
    · have := tok_isSome_of_wf hrr hal hcur b
      rw [htok] at this
      cases this
    · obtain ⟨h1, h2, h3, h4, _, h6⟩ := tok_some_fields htok
      have hrec := ih (l := l2) (by rw [h2, h1, hrr]) (by rw [h3, h1]; exact hal)
        (by rw [h4]; exact h6)
      show (match l2.run bs with
          | none => none
          | some (ts2, lf2) => some (t :: ts2, lf2)).isSome = true
      rcases hrun : l2.run bs with _ | ⟨ts2, lf2⟩
      · rw [hrun] at hrec
        cases hrec
      · rfl

theorem build_fields {bld : LexerBuilder T} {l : Lexer T} (hb : bld.build = some l) :
    l.regexes = l.regex_set ∧ l.actions.length = l.regex_set.length := by
  unfold LexerBuilder.build at hb
  rcases hc : compileAll (bld.actions.map (fun a => a.token)) with _ | rs
  · rw [hc] at hb
    cases hb
  · rw [hc] at hb
    injection hb with hb
    subst hb
    refine ⟨rfl, ?_⟩
    simp only [List.length_map]
    rw [compileAll_some_length _ _ hc]
    simp

theorem build_data {bld : LexerBuilder T} {l : Lexer T} (hb : bld.build = some l) :
    l.data = [] ∧ l.curr_pos = 0 := by
  unfold LexerBuilder.build at hb
  rcases hc : compileAll (bld.actions.map (fun a => a.token)) with _ | rs
  · rw [hc] at hb
    cases hb
  · rw [hc] at hb
    injection hb with hb
    subst hb
    exact ⟨rfl, rfl⟩

theorem tok_eq_of_pick {lx : Lexer T} {sw : Bool} (hrr : lx.regexes = lx.regex_set)
    (hcur : lx.curr_pos ≤ lx.data.length)
    (hne : lx.matchList (lx.skipPos sw) ≠ [])
    {acc0 : Nat × Nat}
    (hacc : pickPure (lx.ruleLen (lx.skipPos sw)) (lx.matchList (lx.skipPos sw)) (0, 0) = acc0)
    {act : List Char → T} (hact : lx.actions.get? acc0.2 = some act)
    (h1 : lx.skipPos sw ≤ acc0.1) (h2 : acc0.1 ≤ lx.data.length) :
    lx.tok sw =
      some (some (act ((lx.data.drop (lx.skipPos sw)).take (acc0.1 - lx.skipPos sw))),
        { lx with curr_pos := acc0.1 }) := by
  have hmem : ∀ m ∈ lx.matchList (lx.skipPos sw), ∃ re, lx.regexes.get? m = some re ∧
      (re.find (lx.data.drop (lx.skipPos sw))).isSome = true :=
    fun m hm => matchList_find_isSome hrr hm
  unfold Lexer.tok
  dsimp only
  rw [if_pos hcur, if_pos (skipPos_le lx sw hcur)]
  rw [if_neg (by simpa [List.isEmpty_iff] using hne)]
  rw [pickLoop_eq_pickPure lx (lx.skipPos sw) _ _ hmem, hacc]
  show (match lx.actions.get? acc0.2 with
      | none => none
      | some act =>
        if lx.skipPos sw ≤ acc0.1 ∧ acc0.1 ≤ lx.data.length then
          some (some (act ((lx.data.drop (lx.skipPos sw)).take (acc0.1 - lx.skipPos sw))),
            { lx with curr_pos := acc0.1 })
        else none) =
    some (some (act ((lx.data.drop (lx.skipPos sw)).take (acc0.1 - lx.skipPos sw))),
      { lx with curr_pos := acc0.1 })
  rw [hact]
  show (if lx.skipPos sw ≤ acc0.1 ∧ acc0.1 ≤ lx.data.length then
      some (some (act ((lx.data.drop (lx.skipPos sw)).take (acc0.1 - lx.skipPos sw))),
        { lx with curr_pos := acc0.1 })
      else none) =
    some (some (act ((lx.data.drop (lx.skipPos sw)).take (acc0.1 - lx.skipPos sw))),
      { lx with curr_pos := acc0.1 })
  rw [if_pos ⟨h1, h2⟩]

theorem runTrace_aux (fs : List Bool) :
    ∀ (l : Lexer T), l.curr_pos ≤ l.data.length →
      List.Chain' (fun a b => a.curr_pos ≤ b.curr_pos) (l.runTrace fs) ∧
        ∀ l2 ∈ l.runTrace fs, l2.curr_pos ≤ l.data.length ∧ l2.data = l.data := by
  induction fs with
  | nil =>
    intro l hcur
    refine ⟨List.chain'_singleton _, ?_⟩
    intro l2 hl2
    simp only [Lexer.runTrace, List.mem_singleton] at hl2
    subst hl2
    exact ⟨hcur, rfl⟩
  | cons b bs ih =>
    intro l hcur
    unfold Lexer.runTrace
    rcases htok : l.tok b with _ | ⟨t, l2⟩
    · refine ⟨?_, ?_⟩
      · exact List.chain'_singleton _
      · intro l2 hl2
        simp only [List.mem_singleton] at hl2
        subst hl2
        exact ⟨hcur, rfl⟩
    · obtain ⟨h1, h2, h3, h4, h5, h6⟩ := tok_some_fields htok
      have hrec := ih l2 (by rw [h4]; exact h6)
      refine ⟨?_, ?_⟩
      · rw [List.chain'_cons']
        refine ⟨?_, hrec.1⟩
        intro y hy
        have hhead : (l2.runTrace bs).head? = some l2 := by
          cases bs <;> rfl
        rw [hhead] at hy
        simp only [Option.mem_def, Option.some.injEq] at hy
        subst hy
        exact h5
      · intro l3 hl3
        rcases List.mem_cons.mp hl3 with rfl | hl3
        · exact ⟨hcur, rfl⟩
        · obtain ⟨ha, hb2⟩ := hrec.2 l3 hl3
          rw [h4] at ha hb2
          exact ⟨ha, hb2⟩

/-- C3: in a `tok` call with `skip_whitespace` true, the whitespace step moves
the cursor to `curr_pos + 1` when the character at the cursor is a whitespace
character and leaves it at `curr_pos` otherwise — at most one whitespace
character is consumed, never a whole run. -/
theorem C3_single_ws_skip (l : Lexer T) :
    l.skipPos true = l.wsAdvance ∧
      l.wsAdvance =
        (if (l.data.get? l.curr_pos).any isWsChar then l.curr_pos + 1 else l.curr_pos) :=
  ⟨rfl, wsAdvance_eq l⟩

/-- C4: when no rule matches at the whitespace-adjusted cursor, `tok` returns
no token (`some (none, ·)`: a normal return, not a panic) and the engine is
left exactly at the whitespace-advanced cursor — the whitespace advance is not
rolled back, and nothing else changes. -/
theorem C4_no_match (l : Lexer T) (sw : Bool) (hcur : l.curr_pos ≤ l.data.length)
    (hmt : l.matchList (l.skipPos sw) = []) :
    l.tok sw = some (none, { l with curr_pos := l.skipPos sw }) := by
  unfold Lexer.tok
  dsimp only
  rw [if_pos hcur, if_pos (skipPos_le l sw hcur), hmt]
  rfl

/-- C4 witness: the `\d+` engine on `"abc"` with whitespace skipping: no rule
matches, the call returns no token and the cursor stays at 0. -/
theorem C4_no_match_witness :
    (numLex.init ['a', 'b', 'c']).tok true =
      some (none, { (numLex.init ['a', 'b', 'c']) with
        curr_pos := (numLex.init ['a', 'b', 'c']).skipPos true }) :=
  C4_no_match (numLex.init ['a', 'b', 'c']) true (by decide) (by decide)

/-- C5: starting from `init`, along any sequence of `tok` calls the cursor is
non-decreasing from one engine state to the next and never exceeds the length
of the buffer. -/
theorem C5_cursor_monotone (l : Lexer T) (input : List Char) (fs : List Bool) :
    List.Chain' (fun a b => a.curr_pos ≤ b.curr_pos) ((l.init input).runTrace fs) ∧
      ∀ l2 ∈ (l.init input).runTrace fs, l2.curr_pos ≤ input.length := by
  have h := runTrace_aux fs (l.init input) (by exact Nat.zero_le _)
  exact ⟨h.1, fun l2 hl2 => (h.2 l2 hl2).1⟩

/-- C6: `is_eof` is true iff the cursor equals the buffer length exactly; it
is false immediately after `init` on a non-empty buffer and true immediately
after `init` on the empty buffer. -/
theorem C6_is_eof_iff (l : Lexer T) (input : List Char) :
    (l.is_eof = true ↔ l.curr_pos = l.data.length) ∧
      (input ≠ [] → (l.init input).is_eof = false) ∧
      (l.init []).is_eof = true := by
  refine ⟨?_, ?_, ?_⟩
  · simp [Lexer.is_eof]
  · intro hne
    cases input with
    | nil => exact absurd rfl hne
    | cons c t =>
      simp [Lexer.is_eof, Lexer.init]
  · rfl

/-- C6 witness: on the `\d+` engine, `is_eof` is false right after `init "4"`
and true right after `init ""`. -/
theorem C6_is_eof_witness :
    ((numLex.is_eof = true ↔ numLex.curr_pos = numLex.data.length) ∧
        ((['4'] : List Char) ≠ [] → (numLex.init ['4']).is_eof = false) ∧
        (numLex.init []).is_eof = true) ∧
      (numLex.init ['4']).is_eof = false :=
  ⟨C6_is_eof_iff numLex ['4'], (C6_is_eof_iff numLex ['4']).2.1 (by decide)⟩

/-- C8: re-initialisation discards all prior cursor and buffer state: after a
build, an `init`, and any successful prior run, a second `init` with a new
input makes every following sequence of `tok` calls — and `is_eof` — give
exactly the results of the freshly built engine fed that input. -/
theorem C8_reinit (bld : LexerBuilder T) (l : Lexer T) (hb : bld.build = some l)
    (input0 : List Char) (fs0 : List Bool) (out : List (Option T)) (l1 : Lexer T)
    (hrun : (l.init input0).run fs0 = some (out, l1)) (input : List Char) (fs : List Bool) :
    (l1.init input).run fs = (l.init input).run fs ∧
      (l1.init input).is_eof = (l.init input).is_eof := by
  obtain ⟨f1, f2, f3⟩ := run_some_fields hrun
  have heq : l1.init input = l.init input := by
    cases l with
    | mk rs res acts d p =>
      cases l1 with
      | mk rs1 res1 acts1 d1 p1 =>
        simp only [Lexer.init] at f1 f2 f3 ⊢
        simp_all
  rw [heq]
  exact ⟨rfl, rfl⟩

/-- C8 witness: run the `\d+` engine over `"42"`, then re-init with `"7"`: the
subsequent run and `is_eof` agree with the fresh engine on `"7"`. -/
theorem C8_reinit_witness :
    (({ numLex with data := ['4', '2'], curr_pos := 2 } : Lexer Nat).init ['7']).run [true] =
        (numLex.init ['7']).run [true] ∧
      (({ numLex with data := ['4', '2'], curr_pos := 2 } : Lexer Nat).init ['7']).is_eof =
        (numLex.init ['7']).is_eof :=
  C8_reinit numBld numLex rfl ['4', '2'] [true] [some 102]
    { numLex with data := ['4', '2'], curr_pos := 2 } rfl ['7'] [true]

/-- C10: for every successfully built rule set and every input, no sequence of
`tok` calls panics: the `RegexSet` and the per-rule regexes are compiled from
the same anchored patterns, so whenever the set reports a match the per-rule
`find(..).unwrap()` succeeds, and every index and slice taken is in bounds. -/
theorem C10_no_panic (bld : LexerBuilder T) (l : Lexer T) (hb : bld.build = some l)
    (input : List Char) (fs : List Bool) :
    ((l.init input).run fs).isSome = true := by
  obtain ⟨hrr, hal⟩ := build_fields hb
  exact run_isSome_of_wf (l := l.init input) hrr hal (by exact Nat.zero_le _) fs

/-- C10 witness: the `\d+` engine never panics over three calls on `"42 5"`. -/
theorem C10_no_panic_witness :
    ((numLex.init ['4', '2', ' ', '5']).run [true, true, true]).isSome = true :=
  C10_no_panic numBld numLex rfl ['4', '2', ' ', '5'] [true, true, true]

/-- C7: `build` panics (modelled `none`) iff some stored pattern is not a
valid regular expression — prepending the `"^"` anchor preserves validity in
both directions in the modelled fragment (`new_anchor_isSome`) — and on
success it produces an engine whose input buffer is empty and cursor is 0. -/
theorem C7_build_valid (b : LexerBuilder T) :
    (b.build = none ↔ ∃ a ∈ b.actions, Regex.new a.token = none) ∧
      ∀ l, b.build = some l → l.data = [] ∧ l.curr_pos = 0 := by
  constructor
  · have hnone : b.build = none ↔ compileAll (b.actions.map (fun a => a.token)) = none := by
      unfold LexerBuilder.build
      rcases hc : compileAll (b.actions.map (fun a => a.token)) with _ | rs <;> rw [hc]
      · exact iff_of_true rfl rfl
      · exact iff_of_false (fun h => Option.noConfusion h) (fun h => Option.noConfusion h)
    rw [hnone, compileAll_eq_none_iff]
    constructor
    · intro ⟨p, hp, hnew⟩
      simp only [List.mem_map] at hp
      obtain ⟨a, ha, rfl⟩ := hp
      refine ⟨a, ha, ?_⟩
      rw [← Option.not_isSome_iff_eq_none] at hnew ⊢
      rw [← new_anchor_isSome]
      exact hnew
    · intro ⟨a, ha, hnew⟩
      refine ⟨a.token, List.mem_map.mpr ⟨a, ha, rfl⟩, ?_⟩
      rw [← Option.not_isSome_iff_eq_none] at hnew ⊢
      rw [new_anchor_isSome]
      exact hnew
  · intro l hb
    exact build_data hb

/-- C7 witness: the `\d+` builder builds successfully (its pattern is valid),
and the built engine has empty buffer and cursor 0. -/
theorem C7_build_valid_witness :
    (numBld.build = none ↔ ∃ a ∈ numBld.actions, Regex.new a.token = none) ∧
      numLex.data = [] ∧ numLex.curr_pos = 0 :=
  ⟨(C7_build_valid numBld).1, (C7_build_valid numBld).2 numLex rfl⟩

/-- C9: when the whitespace-adjusted cursor is 0 and at least one rule matches
but every matching rule's match is empty, `tok` returns the FIRST-registered
rule's action applied to the empty string — even when rule 0 is not among the
matching rules — and the cursor stays at 0. The loop starts from
`(longest, longest_id) = (0, 0)` and only a strictly greater `length` updates
it, so with all lengths 0 the initial `(0, 0)` survives. -/
theorem C9_empty_matches_pick_rule_zero (bld : LexerBuilder T) (l lx : Lexer T)
    (hb : bld.build = some l) (d : List Char)
    (hlx : lx = { l with data := d, curr_pos := 0 }) (sw : Bool)
    (hpos : lx.skipPos sw = 0)
    (hne : lx.matchList 0 ≠ [])
    (hzero : ∀ m ∈ lx.matchList 0, lx.ruleLen 0 m = 0) :
    ∃ act, lx.actions.get? 0 = some act ∧
      lx.tok sw = some (some (act []), lx) := by
  have hrr : lx.regexes = lx.regex_set := by rw [hlx]; exact (build_fields hb).1
  have hal : lx.actions.length = lx.regex_set.length := by rw [hlx]; exact (build_fields hb).2
  have hcur : lx.curr_pos ≤ lx.data.length := by rw [hlx]; exact Nat.zero_le _
  obtain ⟨m0, hm0⟩ := List.exists_mem_of_ne_nil _ hne
  have hm0lt : m0 < lx.regex_set.length := (mem_matchList.mp hm0).1
  rcases hact : lx.actions.get? 0 with _ | act
  · rw [List.get?_eq_none] at hact
    omega
  · refine ⟨act, rfl, ?_⟩
    have hacc : pickPure (lx.ruleLen (lx.skipPos sw)) (lx.matchList (lx.skipPos sw)) (0, 0) =
        (0, 0) := by
      rw [hpos]
      exact pickPure_all_zero _ _ hzero
    have hne' : lx.matchList (lx.skipPos sw) ≠ [] := by
      rw [hpos]
      exact hne
    have htok := tok_eq_of_pick hrr hcur hne' hacc hact (by rw [hpos]) (Nat.zero_le _)
    rw [hpos] at htok
    have hfinal : ({ lx with curr_pos := ((0, 0) : Nat × Nat).1 } : Lexer T) = lx := by
      rw [hlx]
    rw [hfinal] at htok
    exact htok

/-- C9 witness: rules `a`, `x*`, `y*` on input `"b"`: rules 1 and 2 match with
empty matches, rule 0 does not match, and `tok` returns rule 0's token with
the cursor unchanged. -/
theorem C9_witness :
    ∃ act, (quirkLex.init ['b']).actions.get? 0 = some act ∧
      (quirkLex.init ['b']).tok false = some (some (act []), quirkLex.init ['b']) :=
  C9_empty_matches_pick_rule_zero quirkBld quirkLex (quirkLex.init ['b']) rfl ['b'] rfl false
    rfl (by decide) (by decide)

/-- C1 (amended): in a `tok` call where at least two rules match at the
whitespace-adjusted cursor, PROVIDED that cursor is positive or some matching
rule's match is non-empty, the selected rule `w` is a matching rule whose
match end is maximal, any tie is broken in favour of the earliest-registered
(smallest-index) rule, and the returned token is `w`'s action applied to the
consumed text, with the cursor advanced to the match end. (The proviso is
forced by the `(0, 0)` loop initialisation: at cursor 0 with all matches
empty the engine instead picks rule 0, as the accompanying counterexample
shows.) -/
theorem C1_longest_match (bld : LexerBuilder T) (l lx : Lexer T) (hb : bld.build = some l)
    (d : List Char) (p : Nat) (hlx : lx = { l with data := d, curr_pos := p })
    (hp : p ≤ d.length) (sw : Bool)
    (htwo : 2 ≤ (lx.matchList (lx.skipPos sw)).length)
    (hpos : 0 < lx.skipPos sw ∨ ∃ m ∈ lx.matchList (lx.skipPos sw),
      lx.skipPos sw < lx.ruleLen (lx.skipPos sw) m) :
    ∃ w ∈ lx.matchList (lx.skipPos sw), ∃ act, lx.actions.get? w = some act ∧
      (∀ m ∈ lx.matchList (lx.skipPos sw),
        lx.ruleLen (lx.skipPos sw) m ≤ lx.ruleLen (lx.skipPos sw) w) ∧
      (∀ m ∈ lx.matchList (lx.skipPos sw),
        lx.ruleLen (lx.skipPos sw) m = lx.ruleLen (lx.skipPos sw) w → w ≤ m) ∧
      lx.tok sw = some (some (act ((lx.data.drop (lx.skipPos sw)).take
          (lx.ruleLen (lx.skipPos sw) w - lx.skipPos sw))),
        { lx with curr_pos := lx.ruleLen (lx.skipPos sw) w }) := by
  have hrr : lx.regexes = lx.regex_set := by rw [hlx]; exact (build_fields hb).1
  have hal : lx.actions.length = lx.regex_set.length := by rw [hlx]; exact (build_fields hb).2
  have hcur : lx.curr_pos ≤ lx.data.length := by rw [hlx]; exact hp
  have hne : lx.matchList (lx.skipPos sw) ≠ [] := by
    intro hc
    rw [hc] at htwo
    simp at htwo
  have hmem : ∀ m ∈ lx.matchList (lx.skipPos sw), ∃ re, lx.regexes.get? m = some re ∧
      (re.find (lx.data.drop (lx.skipPos sw))).isSome = true :=
    fun m hm => matchList_find_isSome hrr hm
  obtain ⟨m0, hm0⟩ := List.exists_mem_of_ne_nil _ hne
  have hb0 := ruleLen_bounds (hmem m0 hm0) (skipPos_le lx sw hcur)
  have hle0 := pickPure_le (lx.ruleLen (lx.skipPos sw)) (lx.matchList (lx.skipPos sw)) (0, 0)
    m0 hm0
  have hgt : 0 < (pickPure (lx.ruleLen (lx.skipPos sw))
      (lx.matchList (lx.skipPos sw)) (0, 0)).1 := by
    rcases hpos with hpos | ⟨m, hm, hlt⟩
    · omega
    · have hlem := pickPure_le (lx.ruleLen (lx.skipPos sw)) (lx.matchList (lx.skipPos sw)) (0, 0)
        m hm
      omega
  rcases pickPure_spec (lx.ruleLen (lx.skipPos sw)) (lx.matchList (lx.skipPos sw)) (0, 0) with
    ⟨heq, _⟩ | ⟨ms₁, ms₂, hsplit, hfw, hlt0, hless⟩
  · rw [heq] at hgt
    simp at hgt
  · have hwin : (pickPure (lx.ruleLen (lx.skipPos sw)) (lx.matchList (lx.skipPos sw)) (0, 0)).2 ∈
        lx.matchList (lx.skipPos sw) := by
      have hin : (pickPure (lx.ruleLen (lx.skipPos sw)) (lx.matchList (lx.skipPos sw)) (0, 0)).2 ∈
          ms₁ ++ (pickPure (lx.ruleLen (lx.skipPos sw)) (lx.matchList (lx.skipPos sw)) (0, 0)).2 ::
            ms₂ :=
        List.mem_append_right _ (List.mem_cons_self _ _)
      rw [← hsplit] at hin
      exact hin
    refine ⟨_, hwin, ?_⟩
    have hwlt : (pickPure (lx.ruleLen (lx.skipPos sw)) (lx.matchList (lx.skipPos sw)) (0, 0)).2 <
        lx.actions.length := by
      have := (mem_matchList.mp hwin).1
      omega
    rcases hact : lx.actions.get?
        (pickPure (lx.ruleLen (lx.skipPos sw)) (lx.matchList (lx.skipPos sw)) (0, 0)).2
      with _ | act
    · rw [List.get?_eq_none] at hact
      omega
    · refine ⟨act, rfl, ?_, ?_, ?_⟩
      · intro m hm
        have := pickPure_le (lx.ruleLen (lx.skipPos sw)) (lx.matchList (lx.skipPos sw)) (0, 0)
          m hm
        omega
      · intro m hm hfeq
        have hpair : (lx.matchList (lx.skipPos sw)).Pairwise (· < ·) := by
          unfold Lexer.matchList
          exact (List.pairwise_lt_range _).sublist (List.filter_sublist _)
        rw [hsplit] at hpair hm
        rcases List.mem_append.mp hm with hm1 | hm2
        · have := hless m hm1
          omega
        · rcases List.mem_cons.mp hm2 with rfl | hm3
          · exact le_rfl
          · have := (List.pairwise_cons.mp (List.pairwise_append.mp hpair).2.1).1 m hm3
            omega
      · have h1 : lx.skipPos sw ≤ (pickPure (lx.ruleLen (lx.skipPos sw))
            (lx.matchList (lx.skipPos sw)) (0, 0)).1 := by
          omega
        have h2 : (pickPure (lx.ruleLen (lx.skipPos sw))
            (lx.matchList (lx.skipPos sw)) (0, 0)).1 ≤ lx.data.length := by
          have hb2 := ruleLen_bounds (hmem _ hwin) (skipPos_le lx sw hcur)
          omega
        have htok := tok_eq_of_pick hrr hcur hne rfl hact h1 h2
        rw [hfw]
        exact htok

/-- C1 witness: rules `\d+` (token `100 + len`) then `\w+` (token `200 + len`)
on input `"42a"`: both rules match at cursor 0, `\d+` with end 2, `\w+` with
end 3; the winner is rule 1 with the strictly longest match, the token is
`actWord "42a" = 203`, and the cursor advances to 3. -/
theorem C1_longest_match_witness :
    ∃ w ∈ (exLex.init ['4', '2', 'a']).matchList ((exLex.init ['4', '2', 'a']).skipPos false),
      ∃ act, (exLex.init ['4', '2', 'a']).actions.get? w = some act ∧
        (∀ m ∈ (exLex.init ['4', '2', 'a']).matchList
            ((exLex.init ['4', '2', 'a']).skipPos false),
          (exLex.init ['4', '2', 'a']).ruleLen ((exLex.init ['4', '2', 'a']).skipPos false) m ≤
            (exLex.init ['4', '2', 'a']).ruleLen
              ((exLex.init ['4', '2', 'a']).skipPos false) w) ∧
        (∀ m ∈ (exLex.init ['4', '2', 'a']).matchList
            ((exLex.init ['4', '2', 'a']).skipPos false),
          (exLex.init ['4', '2', 'a']).ruleLen ((exLex.init ['4', '2', 'a']).skipPos false) m =
            (exLex.init ['4', '2', 'a']).ruleLen ((exLex.init ['4', '2', 'a']).skipPos false) w →
              w ≤ m) ∧
        (exLex.init ['4', '2', 'a']).tok false =
          some (some (act (((exLex.init ['4', '2', 'a']).data.drop
              ((exLex.init ['4', '2', 'a']).skipPos false)).take
                ((exLex.init ['4', '2', 'a']).ruleLen
                  ((exLex.init ['4', '2', 'a']).skipPos false) w -
                  (exLex.init ['4', '2', 'a']).skipPos false))),
            { (exLex.init ['4', '2', 'a']) with
              curr_pos := (exLex.init ['4', '2', 'a']).ruleLen
                ((exLex.init ['4', '2', 'a']).skipPos false) w }) :=
  C1_longest_match exBld exLex (exLex.init ['4', '2', 'a']) rfl ['4', '2', 'a'] 0 rfl
    (by decide) false (by decide) (by decide)

/-- C1 counterexample: rules `a` (token 0), `x*` (token 1), `y*` (token 2) on
input `"b"` at cursor 0: the matching rules are exactly 1 and 2, every match
is empty (length 0), so the claim as stated demands the earliest-registered
matching rule, rule 1, whose action returns token 1 on every text; the code
instead returns rule 0's token 0 and in particular not `some (act1 [])`. -/
theorem C1_counterexample :
    (quirkLex.init ['b']).matchList ((quirkLex.init ['b']).skipPos false) = [1, 2] ∧
      (∀ m ∈ (quirkLex.init ['b']).matchList ((quirkLex.init ['b']).skipPos false),
        (quirkLex.init ['b']).ruleLen ((quirkLex.init ['b']).skipPos false) m = 0) ∧
      (quirkLex.init ['b']).actions.get? 1 = some act1 ∧
      (∀ s, act1 s = 1) ∧
      (quirkLex.init ['b']).tok false = some (some 0, quirkLex.init ['b']) ∧
      ¬((quirkLex.init ['b']).tok false = some (some (act1 []), quirkLex.init ['b'])) := by
  refine ⟨by decide, by decide, rfl, fun s => rfl, rfl, ?_⟩
  intro hcontra
  have h0 : (quirkLex.init ['b']).tok false = some (some 0, quirkLex.init ['b']) := rfl
  rw [h0] at hcontra
  injection hcontra with h
  injection h with h1 h2
  injection h1 with h1
  exact absurd h1 (by decide)

/-- C2 (violated by the code): `build` accepts the pattern `"a|b"`, but its
compiled form `"^a|b"` parses as `(^a)|b`, whose right branch is unanchored:
on buffer `"xb"` the per-rule `find` reports the match `(1, 2)` — a match
beginning strictly AFTER the cursor 0 — so `tok` hands the action the slice
`"xb"` including the unmatched leading `"x"` and advances the cursor to 2. -/
theorem C2_unanchored_alternation :
    altBld.build = some altLex ∧
      altLex.regexes.get? 0 = some reAB ∧
      reAB.find ['x', 'b'] = some (1, 2) ∧
      (1 : Nat) ≠ 0 ∧
      (altLex.init ['x', 'b']).tok false =
        some (some ['x', 'b'], { altLex with data := ['x', 'b'], curr_pos := 2 }) :=
  ⟨rfl, rfl, by decide, by decide, rfl⟩

end RLex
